import Mathlib

/-!
# Verification of the `secret` command line utility

This file gives a shallow embedding of `src/secret.go` (the `secret`
command, a CLI wrapper around Shamir secret sharing) and proves the
specification claims about it.

Conventions of the embedding:

* Go `int` / `int64` values are modelled as `ℤ`; overflow is modelled
  explicitly where it can occur (`toInt64`).
* The external sharing engine (`github.com/posener/sharedsecret`) is not
  part of the repository.  Its operations are modelled from the spec:
  a random polynomial over the prime field GF(2^127 - 1) with the secret
  as constant term, shares as evaluations at 1, 2, ..., and recovery by
  Lagrange interpolation at zero; share text is `<index>,<value>` in
  decimal and secrets render in base 62 (digits, lowercase, uppercase).
  The modulus 2^127 - 1 and the interpolation formula reproduce the
  concrete share/secret vectors recorded in the repository's tests.
* `bufio.Scanner` with `ScanLines` is modelled as splitting the input
  at `'\n'` and stripping one trailing `'\r'` per line (its 64KiB token
  limit is out of scope of the embedded claims).
* `rand.Shuffle` is modelled by quantifying over an arbitrary
  permutation of the engine-produced pool.
* `math.Pow(float64(n), 2)` is modelled exactly: IEEE-754 binary64
  round-to-nearest-even of `n`, then of the square (`rnd53`); the
  `int64(...)` conversion of an out-of-range float is
  implementation-defined in Go and is modelled with the amd64 behaviour
  (minimal int64, here collapsed to `-(2^63)`).
-/

namespace SecretCli

/-- The prime modulus of the sharing engine's field, the Mersenne prime
`2^127 - 1` (this value reproduces the test vectors of the repository). -/
def P : ℕ := 2 ^ 127 - 1

/-- Fuel-driven fast modular exponentiation, used to implement field
inverses as `a^(P-2) mod P`. -/
def powMod : ℕ → ℕ → ℕ → ℕ → ℕ
  | 0, _, _, m => 1 % m
  | fuel + 1, b, e, m =>
    if e = 0 then 1 % m
    else
      let h := powMod fuel b (e / 2) m
      if e % 2 = 0 then h * h % m else h * h % m * b % m

/-- Modelled from the spec: the engine's field inverse in GF(P),
computed as `a^(P-2) mod P` (Fermat); maps `0` to `0`. -/
def invP (a : ℕ) : ℕ := powMod 128 (a % P) (P - 2) P

/-- Multiplication in GF(P) on natural representatives. -/
def mulP (a b : ℕ) : ℕ := a * b % P

/-- Subtraction in GF(P) on natural representatives. -/
def subP (a b : ℕ) : ℕ := (P + a % P - b % P) % P

/-- Canonical representative in `[0, P)` of an arbitrary-precision
integer (Go `big.Int` reduced into the field). -/
def intoP (x : ℤ) : ℕ := (x % (P : ℤ)).toNat

/-- Modelled from the spec: evaluation (Horner) of the engine's secret
polynomial, coefficients listed from the constant term up, in GF(P). -/
def evalPoly (coeffs : List ℕ) (x : ℕ) : ℕ :=
  coeffs.foldr (fun c acc => (c % P + x * acc) % P) 0

/-- Modelled from the spec: the engine's generated pool for
`New(total, k)` — shares are the polynomial's values at `1, ..., total`. -/
def engineShares (total : ℕ) (coeffs : List ℕ) : List (ℕ × ℕ) :=
  (List.range total).map (fun i => (i + 1, evalPoly coeffs (i + 1)))

/-- Modelled from the spec: the engine's secret is the polynomial's
constant term (its value at zero). -/
def engineSecret (coeffs : List ℕ) : ℕ := evalPoly coeffs 0

/-- x-coordinate of the `i`-th point of a recovery working set. -/
def ptX (pts : List (ℕ × ℕ)) (i : ℕ) : ℕ := (pts.getD i (0, 0)).1

/-- y-coordinate of the `i`-th point of a recovery working set. -/
def ptY (pts : List (ℕ × ℕ)) (i : ℕ) : ℕ := (pts.getD i (0, 0)).2

/-- One Lagrange term at zero: `y_i * ∏_{j ≠ i} x_j * (x_j - x_i)⁻¹`. -/
def lagTerm (pts : List (ℕ × ℕ)) (i : ℕ) : ℕ :=
  mulP (ptY pts i)
    (∏ j ∈ (Finset.range pts.length).erase i,
      mulP (ptX pts j) (invP (subP (ptX pts j) (ptX pts i))))

/-- Modelled from the spec: Lagrange interpolation at zero in GF(P). -/
def lagAtZero (pts : List (ℕ × ℕ)) : ℕ :=
  (∑ i ∈ Finset.range pts.length, lagTerm pts i) % P

/-- Modelled from the spec: the engine's `Recover`, interpolating the
collected share points at zero. -/
def engineRecover (shares : List (ℤ × ℤ)) : ℕ :=
  lagAtZero (shares.map (fun s => (intoP s.1, intoP s.2)))

/-! ## Text rendering (`OutputFormatter`) -/

/-- Decimal digit character. -/
def decDigitChar (d : ℕ) : Char := Char.ofNat (48 + d)

/-- Base-62 digit character: digits, then lowercase, then uppercase
(Go `big.Int.Text(62)` alphabet). -/
def digit62 (d : ℕ) : Char :=
  if d < 10 then Char.ofNat (48 + d)
  else if d < 36 then Char.ofNat (97 + (d - 10))
  else Char.ofNat (65 + (d - 36))

/-- Most-significant-first digits of `n` in base `b` (fuel-driven). -/
def toDigitsAux (b : ℕ) : ℕ → ℕ → List ℕ
  | 0, _ => []
  | fuel + 1, n => if n = 0 then [] else toDigitsAux b fuel (n / b) ++ [n % b]

/-- Most-significant-first digits of `n` in base `b`; `[0]` for zero. -/
def natDigitsBE (b n : ℕ) : List ℕ := if n = 0 then [0] else toDigitsAux b n n

/-- Decimal rendering of a natural number, as characters. -/
def natDecChars (n : ℕ) : List Char := (natDigitsBE 10 n).map decDigitChar

/-- Decimal rendering of a natural number. -/
def natDec (n : ℕ) : String := String.mk (natDecChars n)

/-- Base-62 rendering of a secret, as characters. -/
def base62Chars (n : ℕ) : List Char := (natDigitsBE 62 n).map digit62

/-- Modelled from the spec: base-62 rendering of a secret
(Go `big.Int.Text(62)`). -/
def base62 (n : ℕ) : String := String.mk (base62Chars n)

/-- One share rendered in the canonical `<index>,<value>` form, as
characters. -/
def shareLineChars (s : ℕ × ℕ) : List Char :=
  natDecChars s.1 ++ ',' :: natDecChars s.2

/-- One share rendered in the canonical `<index>,<value>` form. -/
def shareLine (s : ℕ × ℕ) : String := String.mk (shareLineChars s)

/-! ## Text parsing (`ShareParser`) -/

/-- Splitting a character sequence at a separator (all occurrences);
always returns at least one (possibly empty) part. -/
def splitOnChar (sep : Char) : List Char → List (List Char)
  | [] => [[]]
  | c :: cs =>
    if c = sep then [] :: splitOnChar sep cs
    else
      (c :: (splitOnChar sep cs).headD []) :: (splitOnChar sep cs).tail

/-- Go `unicode.IsSpace`, the character class trimmed by
`strings.TrimSpace`. -/
def goIsSpace (c : Char) : Bool :=
  c.toNat == 32 || c.toNat == 9 || c.toNat == 10 || c.toNat == 13 ||
  c.toNat == 0x0B || c.toNat == 0x0C ||
  c.toNat == 0x85 || c.toNat == 0xA0 || c.toNat == 0x1680 ||
  (Nat.ble 0x2000 c.toNat && Nat.ble c.toNat 0x200A) ||
  c.toNat == 0x2028 || c.toNat == 0x2029 || c.toNat == 0x202F ||
  c.toNat == 0x205F || c.toNat == 0x3000

/-- `strings.TrimSpace`. -/
def goTrim (cs : List Char) : List Char :=
  ((cs.dropWhile goIsSpace).reverse.dropWhile goIsSpace).reverse

/-- `bufio.ScanLines` strips one trailing carriage return per line. -/
def dropCR (l : List Char) : List Char :=
  if l.getLast? = some '\r' then l.dropLast else l

/-- The sequence of line tokens `bufio.Scanner` (with `ScanLines`)
produces from a character stream: split at `'\n'`, do not emit a final
empty token for a trailing newline, strip one trailing `'\r'` each. -/
def goLines (cs : List Char) : List (List Char) :=
  let ps := splitOnChar '\n' cs
  (if ps.getLast? = some [] then ps.dropLast else ps).map dropCR

/-- Decimal digit test (`0`–`9`). -/
def isDecDigit (c : Char) : Bool := Nat.ble 48 c.toNat && Nat.ble c.toNat 57

/-- Parse a non-empty all-digit decimal numeral. -/
def parseDecNat (cs : List Char) : Option ℕ :=
  if cs = [] then none
  else if cs.all isDecDigit then
    some (cs.foldl (fun a c => a * 10 + (c.toNat - 48)) 0)
  else none

/-- Go `big.Int.SetString(s, 10)`: an optional sign followed by a
non-empty run of decimal digits. -/
def parseBigInt (cs : List Char) : Option ℤ :=
  match cs with
  | [] => none
  | c :: rest =>
    if c = '+' then (parseDecNat rest).map (fun n => (n : ℤ))
    else if c = '-' then (parseDecNat rest).map (fun n => -(n : ℤ))
    else (parseDecNat (c :: rest)).map (fun n => (n : ℤ))

/-- Modelled from the spec: the engine's `Share.UnmarshalText` — split
at commas into exactly two parts (else the "expected two parts" error
recorded in the tests), then read index and value as big integers (the
spec does not pin the cause strings of the two numeric failures). -/
def parseShare (t : List Char) : Except String (ℤ × ℤ) :=
  match splitOnChar ',' t with
  | [xs, ys] =>
    match parseBigInt xs with
    | none => .error "malformed share index"
    | some x =>
      match parseBigInt ys with
      | none => .error "malformed share value"
      | some y => .ok (x, y)
  | _ => .error "expected two parts"

/-- Escaping of one character as in Go `%q` (`strconv.Quote`); ASCII is
exact, unprintable non-ASCII escaping is out of modelled scope. -/
def quoteChar (c : Char) : List Char :=
  if c = '"' then ['\\', '"']
  else if c = '\\' then ['\\', '\\']
  else if Nat.ble 32 c.toNat && Nat.ble c.toNat 126 then [c]
  else if c = '\x07' then ['\\', 'a']
  else if c = '\x08' then ['\\', 'b']
  else if c = '\t' then ['\\', 't']
  else if c = '\n' then ['\\', 'n']
  else if c.toNat = 0x0B then ['\\', 'v']
  else if c.toNat = 0x0C then ['\\', 'f']
  else if c = '\r' then ['\\', 'r']
  else if c.toNat < 0x80 then
    ['\\', 'x', (Nat.digitChar (c.toNat / 16)), (Nat.digitChar (c.toNat % 16))]
  else [c]

/-- Go `%q` of a string: double quotes around the escaped characters. -/
def goQuote (cs : List Char) : List Char :=
  '"' :: (cs.map quoteChar).flatten ++ ['"']

/-- The diagnostic line `cmdRecover` writes for one malformed share,
`fmt.Fprintf(diag, "reading share %q: %s\n", t, err)`. -/
def mkDiag (t : List Char) (e : String) : String :=
  "reading share " ++ String.mk (goQuote t) ++ ": " ++ e ++ "\n"

/-- The decoration test of `cmdRecover`: empty after trimming, or the
`"secret: "` or `"shares"` literal prefixes. -/
def skipLine (t : List Char) : Bool :=
  t.isEmpty || "secret: ".data.isPrefixOf t || "shares".data.isPrefixOf t

/-- Processing of one scanned line by `cmdRecover`'s loop: state is the
collected share records and the diagnostic lines written so far. -/
def recoverStep (st : List (ℤ × ℤ) × List String) (line : List Char) :
    List (ℤ × ℤ) × List String :=
  let t := goTrim line
  if skipLine t then st
  else
    match parseShare t with
    | .ok s => (st.1 ++ [s], st.2)
    | .error e => (st.1, st.2 ++ [mkDiag t e])

/-- `cmdRecover`'s scan loop over all lines. -/
def recoverCore (lines : List (List Char)) : List (ℤ × ℤ) × List String :=
  lines.foldl recoverStep ([], [])

/-- The observable result of a recovery invocation: the text written to
the diagnostic sink and the text written to the output stream. -/
structure RecResult where
  diag : String
  out : String
deriving DecidableEq

instance : DecidableEq (Except String RecResult) := fun a b =>
  match a, b with
  | .ok x, .ok y => decidable_of_iff (x = y) (by simp)
  | .error x, .error y => decidable_of_iff (x = y) (by simp)
  | .ok _, .error _ => Decidable.isFalse (by simp)
  | .error _, .ok _ => Decidable.isFalse (by simp)

instance : DecidableEq (Except String (ℤ × ℤ)) := fun a b =>
  match a, b with
  | .ok x, .ok y => decidable_of_iff (x = y) (by simp)
  | .error x, .error y => decidable_of_iff (x = y) (by simp)
  | .ok _, .error _ => Decidable.isFalse (by simp)
  | .error _, .ok _ => Decidable.isFalse (by simp)

/-- `cmdRecover` on an already-scanned sequence of lines; the final
`fmt.Fprintln(out, secret.Text(62))` always runs and the function always
returns a nil error. -/
def cmdRecoverLines (lines : List (List Char)) : Except String RecResult :=
  let st := recoverCore lines
  .ok ⟨String.join st.2, base62 (engineRecover st.1) ++ "\n"⟩

/-- `cmdRecover` on the raw character stream handed to its scanner. -/
def cmdRecover (input : String) : Except String RecResult :=
  cmdRecoverLines (goLines input.data)

/-! ## Generation (`ShareGenerator`) -/

/-- Fuel-driven binary logarithm (kernel-reducible replacement for
`Nat.log2`). -/
def log2F : ℕ → ℕ → ℕ
  | 0, _ => 0
  | fuel + 1, n => if n < 2 then 0 else log2F fuel (n / 2) + 1

/-- Binary logarithm of a natural number (`Nat.log2`). -/
def natLog2 (n : ℕ) : ℕ := log2F n n

/-- IEEE-754 binary64 rounding (round to nearest, ties to even) of a
natural number: exact below `2^53`, otherwise rounded at the number's
ulp.  This is both Go's `float64(n)` conversion and the rounding of an
exact integer product of two floats. -/
def rnd53 (m : ℕ) : ℕ :=
  if m < 2 ^ 53 then m
  else
    let e := natLog2 m - 52
    let q := m / 2 ^ e
    let r := m % 2 ^ e
    if 2 ^ (e - 1) < r ∨ (r = 2 ^ (e - 1) ∧ q % 2 = 1) then (q + 1) * 2 ^ e
    else q * 2 ^ e

/-- `math.Pow(float64(n), 2)` as an exact integer: round `n` to binary64,
square, round the product to binary64 (Go's `math.Pow` performs exactly
one rounding for exponent 2). -/
def flSquare (n : ℕ) : ℕ := rnd53 (rnd53 n * rnd53 n)

/-- Go `int64(x)` of a nonnegative binary64 value: exact if below `2^63`,
otherwise implementation-defined — modelled with the amd64 result, the
minimal int64. -/
def toInt64 (m : ℕ) : ℤ := if m < 2 ^ 63 then (m : ℤ) else -(2 ^ 63)

/-- `genSecrets` of `cmdGenerate`: `int64(math.Pow(float64(n), 2))`
raised to the floor `minShares = 10000`. -/
def poolSizeZ (n : ℤ) : ℤ :=
  let g := toInt64 (flSquare n.toNat)
  if g < 10000 then 10000 else g

/-- The `secret: <base62>` line written by `cmdGenerate`
(`fmt.Fprintln(out, "secret:", secret.Text(62))`). -/
def secretLineChars (secret : ℕ) : List Char :=
  "secret: ".data ++ base62Chars secret

/-- The shares header line written by `cmdGenerate`
(`fmt.Fprintf(out, "shares (need at least %d of these for recovery):\n", k)`). -/
def headerChars (k : ℕ) : List Char :=
  "shares (need at least ".data ++ natDecChars k ++
    " of these for recovery):".data

/-- The lines of a successful generation: one secret line, one header
line, and one line per distributed share. -/
def genLines (k : ℕ) (coeffs : List ℕ) (dist : List (ℕ × ℕ)) :
    List (List Char) :=
  secretLineChars (engineSecret coeffs) :: headerChars k ::
    dist.map shareLineChars

/-- Newline-terminated concatenation of lines (each `Fprintln`/`Fprintf`
above ends its line with `'\n'`). -/
def joinLinesNL (ls : List (List Char)) : List Char :=
  ls.foldr (fun l acc => l ++ '\n' :: acc) []

/-- Outcome of a generation invocation: a returned validation error, a
runtime panic (Go slice bounds / engine panic), or the produced output
text. -/
inductive GenResult where
  | err (msg : String)
  | panicked
  | ok (out : String)
deriving DecidableEq

/-- `cmdGenerate n k`.  The engine's random polynomial is the `coeffs`
parameter and `rand.Shuffle`'s result is the `shuffled` parameter (the
theorems quantify over all permutations of the engine pool).  When
`n` exceeds the generated pool, `shares[:n]` (or the engine's own
`New`) panics, modelled as `.panicked`. -/
def cmdGenerate (n k : ℤ) (coeffs : List ℕ) (shuffled : List (ℕ × ℕ)) :
    GenResult :=
  if k > n then .err "There will not be enough shares to recover the secret."
  else if n < 1 ∨ k < 1 then .err "Number of shares must be larger than 1."
  else
    let pool := poolSizeZ n
    if pool < n then .panicked
    else
      .ok (String.mk
        (joinLinesNL (genLines k.toNat coeffs (shuffled.take n.toNat))))

/-! ## `main`: flags, mode dispatch, recovery stream -/

/-- The flag set `main` declares, with flag types. -/
def cliFlags : List (String × String) :=
  [("recover", "bool"), ("k", "int"), ("n", "int"), ("secrets", "string")]

/-- The two modes of operation. -/
inductive Mode where
  | generate
  | recover
deriving DecidableEq

/-- `main`'s mode dispatch: the boolean `-recover` flag selects recovery,
otherwise generation runs. -/
def mainMode (recoverFlag : Bool) : Mode :=
  if recoverFlag then .recover else .generate

/-- Possible values of `main`'s outer `fh io.ReadCloser` variable. -/
inductive FhVal where
  | nil
  | stdin
  | file (h : ℕ)
deriving DecidableEq

/-- The stream `main` actually passes to `cmdRecover`, given the
`-secrets` argument and the handle of the successfully opened file.
In the non-`"-"` case, `fh, err := os.Open(*secrets)` declares *new*
variables scoped to the switch case, so the outer `fh` is never
assigned and keeps its zero value `nil`. -/
def recoverPassedFh (secretsArg : String) (openedHandle : ℕ) : FhVal :=
  if secretsArg = "-" then FhVal.stdin
  else FhVal.nil

/-- The handles closed (via the deferred `fh.Close()` on the inner,
shadowing `fh`) when the recovery invocation returns. -/
def recoverClosedHandles (secretsArg : String) (openedHandle : ℕ) : List ℕ :=
  if secretsArg = "-" then [] else [openedHandle]

end SecretCli

/-! # Proof development -/

namespace SecretCli

/-! ## The field GF(P) -/

theorem P_prime : Nat.Prime P :=
  lucas_lehmer_sufficiency 127 (by norm_num) (by norm_num)

instance : Fact (Nat.Prime P) := ⟨P_prime⟩

theorem P_pos : 0 < P := P_prime.pos

theorem two_lt_P : 2 < P := by
  have h : (2 : ℕ) ^ 2 ≤ 2 ^ 127 := Nat.pow_le_pow_right (by omega) (by omega)
  simp only [P]
  omega

theorem powMod_eq_pow_mod (fuel : ℕ) :
    ∀ b e m : ℕ, e < 2 ^ fuel → powMod fuel b e m = b ^ e % m := by
  induction fuel with
  | zero =>
    intro b e m he
    have he0 : e = 0 := by omega
    subst he0
    simp [powMod]
  | succ fuel ih =>
    intro b e m he
    by_cases he0 : e = 0
    · subst he0
      simp [powMod]
    · have hdiv : e / 2 < 2 ^ fuel := by
        have : e < 2 ^ fuel * 2 := by
          have := he
          rw [pow_succ] at this
          omega
        omega
      have hrec := ih b (e / 2) m hdiv
      by_cases hpar : e % 2 = 0
      · have hsplit : e / 2 + e / 2 = e := by omega
        simp only [powMod, he0, if_false, hpar, if_true, hrec]
        rw [← Nat.mul_mod, ← pow_add, hsplit]
      · have hpar1 : e % 2 = 1 := by omega
        have hsplit : e / 2 + e / 2 + 1 = e := by omega
        simp only [powMod, he0, if_false, hpar1, one_ne_zero, hrec]
        rw [← Nat.mul_mod, Nat.mod_mul_mod, ← pow_add, ← pow_succ, hsplit]

theorem zmod_pow_sub_two (a : ZMod P) : a ^ (P - 2) = a⁻¹ := by
  by_cases ha : a = 0
  · subst ha
    rw [inv_zero]
    exact zero_pow (by have := two_lt_P; omega)
  · refine (inv_eq_of_mul_eq_one_right ?_).symm
    have h1 : a * a ^ (P - 2) = a ^ (P - 1) := by
      have h2 : P - 1 = P - 2 + 1 := by
        have := two_lt_P
        omega
      rw [h2, pow_succ']
    rw [h1, ZMod.pow_card_sub_one_eq_one ha]

theorem invP_cast (a : ℕ) : ((invP a : ℕ) : ZMod P) = (a : ZMod P)⁻¹ := by
  have hfuel : P - 2 < 2 ^ 128 := by
    have h : (2 : ℕ) ^ 127 < 2 ^ 128 := Nat.pow_lt_pow_right (by omega) (by omega)
    simp only [P]
    omega
  rw [invP, powMod_eq_pow_mod 128 _ _ _ hfuel, ZMod.natCast_mod, Nat.cast_pow,
    ZMod.natCast_mod, zmod_pow_sub_two]

theorem mulP_cast (a b : ℕ) : ((mulP a b : ℕ) : ZMod P) = (a : ZMod P) * b := by
  rw [mulP, ZMod.natCast_mod, Nat.cast_mul]

theorem subP_cast (a b : ℕ) : ((subP a b : ℕ) : ZMod P) = (a : ZMod P) - b := by
  have hle : b % P ≤ P + a % P := by
    have := Nat.mod_lt b P_pos
    omega
  rw [subP, ZMod.natCast_mod, Nat.cast_sub hle, Nat.cast_add, ZMod.natCast_self,
    ZMod.natCast_mod, ZMod.natCast_mod]
  ring

theorem intoP_cast (x : ℤ) : ((intoP x : ℕ) : ZMod P) = (x : ZMod P) := by
  have hnn : 0 ≤ x % (P : ℤ) := Int.emod_nonneg x (by exact_mod_cast P_pos.ne')
  rw [intoP, ← ZMod.intCast_mod x (P : ℕ)]
  rw [← Int.cast_natCast, Int.toNat_of_nonneg hnn]

theorem intoP_natCast (a : ℕ) (ha : a < P) : intoP (a : ℤ) = a := by
  rw [intoP, Int.emod_eq_of_lt (Int.natCast_nonneg a) (by exact_mod_cast ha)]
  simp

theorem evalPoly_lt (c : List ℕ) (x : ℕ) : evalPoly c x < P := by
  cases c with
  | nil => exact P_pos
  | cons a cs => exact Nat.mod_lt _ P_pos

end SecretCli

namespace SecretCli

/-! ## Correctness of `lagAtZero` on polynomial share sets -/

theorem lagAtZero_lt (pts : List (ℕ × ℕ)) : lagAtZero pts < P :=
  Nat.mod_lt _ P_pos

theorem lagAtZero_cast (pts : List (ℕ × ℕ)) :
    ((lagAtZero pts : ℕ) : ZMod P) =
      ∑ i ∈ Finset.range pts.length, ((ptY pts i : ℕ) : ZMod P) *
        ∏ j ∈ (Finset.range pts.length).erase i,
          ((ptX pts j : ℕ) : ZMod P) *
            (((ptX pts j : ℕ) : ZMod P) - ((ptX pts i : ℕ) : ZMod P))⁻¹ := by
  rw [lagAtZero, ZMod.natCast_mod, Nat.cast_sum]
  refine Finset.sum_congr rfl fun i _ => ?_
  rw [lagTerm, mulP_cast, Nat.cast_prod]
  refine congrArg _ (Finset.prod_congr rfl fun j _ => ?_)
  rw [mulP_cast, invP_cast, subP_cast]

theorem hornerPoly_eval (coeffs : List ℕ) (x : ℕ) :
    Polynomial.eval ((x : ℕ) : ZMod P)
      (List.foldr (fun c q => Polynomial.C ((c : ℕ) : ZMod P) +
        Polynomial.X * q) 0 coeffs) = ((evalPoly coeffs x : ℕ) : ZMod P) := by
  induction coeffs with
  | nil => simp [evalPoly]
  | cons c cs ih =>
    have hstep : evalPoly (c :: cs) x = (c % P + x * evalPoly cs x) % P := rfl
    rw [List.foldr_cons, Polynomial.eval_add, Polynomial.eval_C,
      Polynomial.eval_mul, Polynomial.eval_X, ih, hstep, ZMod.natCast_mod,
      Nat.cast_add, Nat.cast_mul, ZMod.natCast_mod]

theorem hornerPoly_degree (coeffs : List ℕ) :
    (List.foldr (fun c q => Polynomial.C ((c : ℕ) : ZMod P) +
      Polynomial.X * q) 0 coeffs).degree < (coeffs.length : WithBot ℕ) := by
  induction coeffs with
  | nil =>
    simp only [List.foldr_nil, Polynomial.degree_zero, List.length_nil]
    exact_mod_cast WithBot.bot_lt_coe 0
  | cons c cs ih =>
    rw [List.foldr_cons]
    refine lt_of_le_of_lt (Polynomial.degree_add_le _ _) (max_lt ?_ ?_)
    · refine lt_of_le_of_lt Polynomial.degree_C_le ?_
      rw [List.length_cons]
      exact_mod_cast Nat.succ_pos cs.length
    · rw [Polynomial.degree_mul, Polynomial.degree_X, List.length_cons]
      rcases hq : (List.foldr (fun c q => Polynomial.C ((c : ℕ) : ZMod P) +
          Polynomial.X * q) 0 cs).degree with _ | d
      · rw [hq]
        show (⊥ : WithBot ℕ) < ((cs.length + 1 : ℕ) : WithBot ℕ)
        exact WithBot.bot_lt_coe _
      · rw [hq] at ih
        rw [hq]
        rw [Nat.cast_withBot] at ih
        have hd : d < cs.length := WithBot.some_lt_some.mp ih
        show ((1 + d : ℕ) : WithBot ℕ) < ((cs.length + 1 : ℕ) : WithBot ℕ)
        rw [Nat.cast_withBot, Nat.cast_withBot]
        exact WithBot.some_lt_some.mpr (by omega)

theorem ptX_lt_of_lt (pts : List (ℕ × ℕ)) (hlt : ∀ q ∈ pts, q.1 < P)
    (i : ℕ) (hi : i < pts.length) : ptX pts i < P := by
  rw [ptX, List.getD_eq_getElem _ _ hi]
  exact hlt _ (List.getElem_mem hi)

theorem lagAtZero_eq_evalPoly_zero (coeffs : List ℕ) (pts : List (ℕ × ℕ))
    (hnodup : (pts.map Prod.fst).Nodup)
    (hlt : ∀ q ∈ pts, q.1 < P)
    (hy : ∀ q ∈ pts, q.2 = evalPoly coeffs q.1)
    (hlen : coeffs.length ≤ pts.length) :
    lagAtZero pts = evalPoly coeffs 0 := by
  classical
  have hinj : Set.InjOn (fun i => ((ptX pts i : ℕ) : ZMod P))
      (Finset.range pts.length) := by
    intro i hi j hj hij
    simp only [Finset.coe_range, Set.mem_Iio] at hi hj
    have hvi := ZMod.val_cast_of_lt (ptX_lt_of_lt pts hlt i hi)
    have hvj := ZMod.val_cast_of_lt (ptX_lt_of_lt pts hlt j hj)
    have hx : ptX pts i = ptX pts j := by
      rw [← hvi, ← hvj]
      exact congrArg ZMod.val hij
    have hi2 : i < (pts.map Prod.fst).length := by simpa using hi
    have hj2 : j < (pts.map Prod.fst).length := by simpa using hj
    have hgi : (pts.map Prod.fst).get ⟨i, hi2⟩ = ptX pts i := by
      rw [List.get_eq_getElem, List.getElem_map, ptX, List.getD_eq_getElem _ _ hi]
    have hgj : (pts.map Prod.fst).get ⟨j, hj2⟩ = ptX pts j := by
      rw [List.get_eq_getElem, List.getElem_map, ptX, List.getD_eq_getElem _ _ hj]
    have hget : (pts.map Prod.fst).get ⟨i, hi2⟩ = (pts.map Prod.fst).get ⟨j, hj2⟩ := by
      rw [hgi, hgj]
      exact hx
    have hfin := List.nodup_iff_injective_get.mp hnodup hget
    exact congrArg Fin.val hfin

  have hdeg : (List.foldr (fun c q => Polynomial.C ((c : ℕ) : ZMod P) +
      Polynomial.X * q) 0 coeffs).degree < ((Finset.range pts.length).card : WithBot ℕ) := by
    rw [Finset.card_range]
    exact lt_of_lt_of_le (hornerPoly_degree coeffs) (by exact_mod_cast hlen)

  have key := Lagrange.eq_interpolate hinj hdeg
  have heval := congrArg (Polynomial.eval (0 : ZMod P)) key
  rw [Lagrange.interpolate_apply, Polynomial.eval_finset_sum] at heval
  simp only [Polynomial.eval_mul, Polynomial.eval_C] at heval

  have hbasis : ∀ i ∈ Finset.range pts.length,
      Polynomial.eval 0 (Lagrange.basis (Finset.range pts.length)
        (fun i => ((ptX pts i : ℕ) : ZMod P)) i)
      = ∏ j ∈ (Finset.range pts.length).erase i,
          ((ptX pts j : ℕ) : ZMod P) *
            (((ptX pts j : ℕ) : ZMod P) - ((ptX pts i : ℕ) : ZMod P))⁻¹ := by
    intro i _
    rw [Lagrange.basis, Polynomial.eval_prod]
    refine Finset.prod_congr rfl fun j _ => ?_
    rw [Lagrange.basisDivisor, Polynomial.eval_mul, Polynomial.eval_C,
      Polynomial.eval_sub, Polynomial.eval_X, Polynomial.eval_C]
    rw [show ((ptX pts i : ℕ) : ZMod P) - ((ptX pts j : ℕ) : ZMod P)
        = -(((ptX pts j : ℕ) : ZMod P) - ((ptX pts i : ℕ) : ZMod P)) from
      (neg_sub _ _).symm, inv_neg, zero_sub, neg_mul_neg, mul_comm]

  have hr : ∀ i ∈ Finset.range pts.length,
      Polynomial.eval ((fun i => ((ptX pts i : ℕ) : ZMod P)) i)
        (List.foldr (fun c q => Polynomial.C ((c : ℕ) : ZMod P) +
          Polynomial.X * q) 0 coeffs) = ((ptY pts i : ℕ) : ZMod P) := by
    intro i hi
    rw [Finset.mem_range] at hi
    rw [hornerPoly_eval coeffs (ptX pts i)]
    have h1 : ptX pts i = (pts.get ⟨i, hi⟩).1 :=
      congrArg Prod.fst (by rw [List.getD_eq_getElem _ _ hi, List.get_eq_getElem])
    have h2 : ptY pts i = (pts.get ⟨i, hi⟩).2 :=
      congrArg Prod.snd (by rw [List.getD_eq_getElem _ _ hi, List.get_eq_getElem])
    congr 1
    rw [h1, h2]
    exact (hy _ (List.get_mem pts i hi)).symm

  have hcast : ((lagAtZero pts : ℕ) : ZMod P) =
      ((evalPoly coeffs 0 : ℕ) : ZMod P) := by
    rw [lagAtZero_cast]
    have h0 : ((evalPoly coeffs 0 : ℕ) : ZMod P) =
        Polynomial.eval ((0 : ℕ) : ZMod P)
          (List.foldr (fun c q => Polynomial.C ((c : ℕ) : ZMod P) +
            Polynomial.X * q) 0 coeffs) := (hornerPoly_eval coeffs 0).symm
    rw [h0, Nat.cast_zero, heval]
    refine Finset.sum_congr rfl fun i hi => ?_
    rw [hbasis i hi, hr i hi]

  have hval := congrArg ZMod.val hcast
  rwa [ZMod.val_cast_of_lt (lagAtZero_lt pts),
    ZMod.val_cast_of_lt (evalPoly_lt coeffs 0)] at hval

end SecretCli

namespace SecretCli

/-! ## Digit rendering and parsing round trip -/

theorem toDigitsAux_foldl (b : ℕ) (hb : 2 ≤ b) :
    ∀ fuel n : ℕ, n < b ^ fuel →
      (toDigitsAux b fuel n).foldl (fun a d => a * b + d) 0 = n := by
  intro fuel
  induction fuel with
  | zero =>
    intro n hn
    have : n = 0 := by simpa using hn
    subst this
    simp [toDigitsAux]
  | succ fuel ih =>
    intro n hn
    by_cases h0 : n = 0
    · subst h0
      simp [toDigitsAux]
    · have hdiv : n / b < b ^ fuel := by
        rw [Nat.div_lt_iff_lt_mul (by omega)]
        calc n < b ^ (fuel + 1) := hn
          _ = b ^ fuel * b := by rw [pow_succ]
      simp only [toDigitsAux, h0, if_false, List.foldl_append, List.foldl_cons,
        List.foldl_nil, ih (n / b) hdiv]
      exact Nat.div_add_mod' n b

theorem toDigitsAux_lt (b fuel n : ℕ) (hb : 0 < b) :
    ∀ d ∈ toDigitsAux b fuel n, d < b := by
  induction fuel generalizing n with
  | zero => simp [toDigitsAux]
  | succ fuel ih =>
    intro d hd
    by_cases h0 : n = 0
    · subst h0
      simp [toDigitsAux] at hd
    · simp only [toDigitsAux, h0, if_false, List.mem_append,
        List.mem_singleton] at hd
      rcases hd with hd | hd
      · exact ih (n / b) d hd
      · subst hd
        exact Nat.mod_lt _ hb

theorem natDigitsBE_foldl (b n : ℕ) (hb : 2 ≤ b) :
    (natDigitsBE b n).foldl (fun a d => a * b + d) 0 = n := by
  by_cases h0 : n = 0
  · subst h0
    simp [natDigitsBE]
  · rw [natDigitsBE, if_neg h0]
    exact toDigitsAux_foldl b hb n n (Nat.lt_pow_self (by omega) n)

theorem natDigitsBE_lt (b n : ℕ) (hb : 2 ≤ b) :
    ∀ d ∈ natDigitsBE b n, d < b := by
  by_cases h0 : n = 0
  · subst h0
    intro d hd
    simp [natDigitsBE] at hd
    omega
  · rw [natDigitsBE, if_neg h0]
    exact toDigitsAux_lt b n n (by omega)

theorem natDigitsBE_ne_nil (b n : ℕ) : natDigitsBE b n ≠ [] := by
  by_cases h0 : n = 0
  · subst h0
    simp [natDigitsBE]
  · rw [natDigitsBE, if_neg h0]
    rw [show toDigitsAux b n n =
      (if n = 0 then [] else toDigitsAux b (n - 1) (n / b) ++ [n % b]) from by
        cases n with
        | zero => simp at h0
        | succ m => rfl]
    rw [if_neg h0]
    simp

theorem decDigitChar_spec :
    ∀ d, d < 10 → (decDigitChar d).toNat = 48 + d ∧
      isDecDigit (decDigitChar d) = true := by decide

theorem natDecChars_all_digit (n : ℕ) :
    ∀ c ∈ natDecChars n, isDecDigit c = true := by
  intro c hc
  rw [natDecChars, List.mem_map] at hc
  obtain ⟨d, hd, rfl⟩ := hc
  exact (decDigitChar_spec d (natDigitsBE_lt 10 n (by omega) d hd)).2

theorem natDecChars_ne_nil (n : ℕ) : natDecChars n ≠ [] := by
  rw [natDecChars]
  intro h
  exact natDigitsBE_ne_nil 10 n (List.map_eq_nil_iff.mp h)

theorem isDecDigit_range (c : Char) (h : isDecDigit c = true) :
    48 ≤ c.toNat ∧ c.toNat ≤ 57 := by
  rw [isDecDigit, Bool.and_eq_true, Nat.ble_eq, Nat.ble_eq] at h
  exact h

theorem parseDecNat_natDecChars (n : ℕ) :
    parseDecNat (natDecChars n) = some n := by
  rw [parseDecNat, if_neg (natDecChars_ne_nil n),
    if_pos (List.all_eq_true.mpr (natDecChars_all_digit n))]
  congr 1
  rw [natDecChars, List.foldl_map]
  have hfold : ∀ ds : List ℕ, (∀ d ∈ ds, d < 10) → ∀ a : ℕ,
      ds.foldl (fun a d => a * 10 + ((decDigitChar d).toNat - 48)) a =
      ds.foldl (fun a d => a * 10 + d) a := by
    intro ds
    induction ds with
    | nil => intro _ _; rfl
    | cons d ds ih =>
      intro hlt a
      have hd := (decDigitChar_spec d (hlt d (by simp))).1
      simp only [List.foldl_cons, hd]
      rw [show 48 + d - 48 = d from by omega]
      exact ih (fun x hx => hlt x (by simp [hx])) _
  rw [hfold _ (natDigitsBE_lt 10 n (by omega))]
  exact natDigitsBE_foldl 10 n (by omega)

theorem parseBigInt_natDecChars (n : ℕ) :
    parseBigInt (natDecChars n) = some (n : ℤ) := by
  rcases hne : natDecChars n with _ | ⟨c, rest⟩
  · exact absurd hne (natDecChars_ne_nil n)
  · have hdig : isDecDigit c = true := by
      refine natDecChars_all_digit n c ?_
      rw [hne]
      simp
    have hrange := isDecDigit_range c hdig
    have hplus : c ≠ '+' := by
      intro h
      subst h
      exact absurd hrange (by decide)
    have hminus : c ≠ '-' := by
      intro h
      subst h
      exact absurd hrange (by decide)
    rw [parseBigInt, if_neg hplus, if_neg hminus, ← hne,
      parseDecNat_natDecChars n]
    rfl

end SecretCli

namespace SecretCli

/-! ## Line splitting, trimming and character classes -/

theorem splitOnChar_not_mem (sep : Char) (cs : List Char) (h : sep ∉ cs) :
    splitOnChar sep cs = [cs] := by
  induction cs with
  | nil => rfl
  | cons c cs ih =>
    have hc : c ≠ sep := fun hc => h (by simp [hc])
    have hrest := ih (fun hm => h (by simp [hm]))
    simp [splitOnChar, if_neg hc, hrest]

theorem splitOnChar_append (sep : Char) (a b : List Char) (h : sep ∉ a) :
    splitOnChar sep (a ++ sep :: b) = a :: splitOnChar sep b := by
  induction a with
  | nil => simp [splitOnChar]
  | cons c a ih =>
    have hc : c ≠ sep := fun hc => h (by simp [hc])
    have hrest := ih (fun hm => h (by simp [hm]))
    simp [splitOnChar, if_neg hc, hrest]

theorem splitOnChar_ne_nil (sep : Char) (cs : List Char) :
    splitOnChar sep cs ≠ [] := by
  cases cs with
  | nil => simp [splitOnChar]
  | cons c cs =>
    by_cases hc : c = sep
    · simp [splitOnChar, hc]
    · simp [splitOnChar, if_neg hc]

theorem dropCR_eq_self (l : List Char) (h : l.getLast? ≠ some '\r') :
    dropCR l = l := if_neg h

theorem dropWhile_eq_self_of_head (p : Char → Bool) (l : List Char)
    (h : ∀ c ∈ l.head?, p c = false) : l.dropWhile p = l := by
  cases l with
  | nil => rfl
  | cons a l =>
    have ha := h a (by simp)
    simp [List.dropWhile_cons, ha]

theorem goTrim_eq_self (cs : List Char)
    (h1 : ∀ c ∈ cs.head?, goIsSpace c = false)
    (h2 : ∀ c ∈ cs.getLast?, goIsSpace c = false) : goTrim cs = cs := by
  rw [goTrim, dropWhile_eq_self_of_head goIsSpace cs h1,
    dropWhile_eq_self_of_head goIsSpace cs.reverse
      (by rw [List.head?_reverse]; exact h2),
    List.reverse_reverse]

theorem goIsSpace_iff (c : Char) : goIsSpace c = true ↔
    (c.toNat = 32 ∨ c.toNat = 9 ∨ c.toNat = 10 ∨ c.toNat = 13 ∨
     c.toNat = 0x0B ∨ c.toNat = 0x0C ∨ c.toNat = 0x85 ∨ c.toNat = 0xA0 ∨
     c.toNat = 0x1680 ∨ (0x2000 ≤ c.toNat ∧ c.toNat ≤ 0x200A) ∨
     c.toNat = 0x2028 ∨ c.toNat = 0x2029 ∨ c.toNat = 0x202F ∨
     c.toNat = 0x205F ∨ c.toNat = 0x3000) := by
  simp only [goIsSpace, Bool.or_eq_true, Bool.and_eq_true, Nat.ble_eq,
    beq_iff_eq]
  tauto

theorem goIsSpace_false_of_range (c : Char) (hlo : 33 ≤ c.toNat)
    (hhi : c.toNat ≤ 126) : goIsSpace c = false := by
  rw [← Bool.not_eq_true, goIsSpace_iff]
  omega

theorem isDecDigit_not_space (c : Char) (h : isDecDigit c = true) :
    goIsSpace c = false := by
  have := isDecDigit_range c h
  exact goIsSpace_false_of_range c (by omega) (by omega)

theorem isDecDigit_ne_newline (c : Char) (h : isDecDigit c = true) :
    c ≠ '\n' := by
  intro hc
  subst hc
  exact absurd h (by decide)

theorem isDecDigit_ne_comma (c : Char) (h : isDecDigit c = true) :
    c ≠ ',' := by
  intro hc
  subst hc
  exact absurd h (by decide)

theorem isDecDigit_ne_cr (c : Char) (h : isDecDigit c = true) :
    c ≠ '\r' := by
  intro hc
  subst hc
  exact absurd h (by decide)

theorem digit62_spec : ∀ d, d < 62 →
    48 ≤ (digit62 d).toNat ∧ (digit62 d).toNat ≤ 122 := by decide

theorem base62Chars_range (n : ℕ) :
    ∀ c ∈ base62Chars n, 48 ≤ c.toNat ∧ c.toNat ≤ 122 := by
  intro c hc
  rw [base62Chars, List.mem_map] at hc
  obtain ⟨d, hd, rfl⟩ := hc
  exact digit62_spec d (natDigitsBE_lt 62 n (by omega) d hd)

theorem base62Chars_ne_nil (n : ℕ) : base62Chars n ≠ [] := by
  rw [base62Chars]
  intro h
  exact natDigitsBE_ne_nil 62 n (List.map_eq_nil_iff.mp h)

/-! ## The scan loop of `cmdRecover` -/

theorem recoverStep_skip (st : List (ℤ × ℤ) × List String) (line : List Char)
    (h : skipLine (goTrim line) = true) : recoverStep st line = st := by
  simp [recoverStep, h]

theorem recoverStep_ok (st : List (ℤ × ℤ) × List String) (line : List Char)
    (s : ℤ × ℤ) (hskip : skipLine (goTrim line) = false)
    (hp : parseShare (goTrim line) = .ok s) :
    recoverStep st line = (st.1 ++ [s], st.2) := by
  simp [recoverStep, hskip, hp]

theorem recoverStep_err (st : List (ℤ × ℤ) × List String) (line : List Char)
    (e : String) (hskip : skipLine (goTrim line) = false)
    (hp : parseShare (goTrim line) = .error e) :
    recoverStep st line = (st.1, st.2 ++ [mkDiag (goTrim line) e]) := by
  simp [recoverStep, hskip, hp]

theorem recoverStep_shift (st : List (ℤ × ℤ) × List String)
    (line : List Char) : recoverStep st line =
      (st.1 ++ (recoverStep ([], []) line).1,
       st.2 ++ (recoverStep ([], []) line).2) := by
  by_cases h : skipLine (goTrim line) = true
  · rw [recoverStep_skip st line h, recoverStep_skip ([], []) line h]
    simp
  · rw [Bool.not_eq_true] at h
    rcases hp : parseShare (goTrim line) with e | s
    · rw [recoverStep_err st line e h hp, recoverStep_err ([], []) line e h hp]
      simp
    · rw [recoverStep_ok st line s h hp, recoverStep_ok ([], []) line s h hp]
      simp

theorem foldl_recoverStep_shift (lines : List (List Char)) :
    ∀ st : List (ℤ × ℤ) × List String, lines.foldl recoverStep st =
      (st.1 ++ (recoverCore lines).1, st.2 ++ (recoverCore lines).2) := by
  induction lines with
  | nil =>
    intro st
    simp [recoverCore]
  | cons l ls ih =>
    intro st
    rw [List.foldl_cons, ih (recoverStep st l),
      show recoverCore (l :: ls) = ls.foldl recoverStep (recoverStep ([], []) l)
        from rfl,
      ih (recoverStep ([], []) l), recoverStep_shift st l]
    simp

theorem recoverCore_append (a b : List (List Char)) :
    recoverCore (a ++ b) =
      ((recoverCore a).1 ++ (recoverCore b).1,
       (recoverCore a).2 ++ (recoverCore b).2) := by
  rw [recoverCore, List.foldl_append, ← recoverCore, foldl_recoverStep_shift]

theorem recoverCore_cons (l : List Char) (ls : List (List Char)) :
    recoverCore (l :: ls) =
      ((recoverStep ([], []) l).1 ++ (recoverCore ls).1,
       (recoverStep ([], []) l).2 ++ (recoverCore ls).2) := by
  rw [show recoverCore (l :: ls) = ls.foldl recoverStep (recoverStep ([], []) l)
      from rfl,
    foldl_recoverStep_shift]

end SecretCli

namespace SecretCli

/-! ## Classification of the generated lines -/

theorem isPrefixOf_cons_ne (a b : Char) (l m : List Char) (h : a ≠ b) :
    List.isPrefixOf (a :: l) (b :: m) = false := by
  simp [List.isPrefixOf, h]

theorem isPrefixOf_self_append (l t : List Char) :
    List.isPrefixOf l (l ++ t) = true :=
  List.isPrefixOf_iff_prefix.mpr (List.prefix_append l t)

theorem shareLineChars_parse (s : ℕ × ℕ) :
    parseShare (shareLineChars s) = .ok ((s.1 : ℤ), (s.2 : ℤ)) := by
  have hcomma1 : ',' ∉ natDecChars s.1 := fun hm =>
    isDecDigit_ne_comma ',' (natDecChars_all_digit s.1 ',' hm) rfl
  have hcomma2 : ',' ∉ natDecChars s.2 := fun hm =>
    isDecDigit_ne_comma ',' (natDecChars_all_digit s.2 ',' hm) rfl
  have hsplit : splitOnChar ',' (shareLineChars s) =
      [natDecChars s.1, natDecChars s.2] := by
    rw [shareLineChars, splitOnChar_append ',' _ _ hcomma1,
      splitOnChar_not_mem ',' _ hcomma2]
  rw [parseShare, hsplit]
  simp [parseBigInt_natDecChars]

theorem shareLineChars_head_digit (s : ℕ × ℕ) :
    ∃ c rest, shareLineChars s = c :: rest ∧ isDecDigit c = true := by
  rcases hne : natDecChars s.1 with _ | ⟨c, r⟩
  · exact absurd hne (natDecChars_ne_nil s.1)
  · refine ⟨c, r ++ ',' :: natDecChars s.2, ?_, ?_⟩
    · rw [shareLineChars, hne]
      rfl
    · refine natDecChars_all_digit s.1 c ?_
      rw [hne]
      simp

theorem shareLineChars_skip (s : ℕ × ℕ) :
    skipLine (shareLineChars s) = false := by
  obtain ⟨c, rest, heq, hdig⟩ := shareLineChars_head_digit s
  have hrange := isDecDigit_range c hdig
  rw [heq, skipLine]
  have h1 : List.isEmpty (c :: rest) = false := rfl
  have h2 : List.isPrefixOf "secret: ".data (c :: rest) = false := by
    rw [show "secret: ".data = 's' :: "ecret: ".data from rfl]
    refine isPrefixOf_cons_ne _ _ _ _ ?_
    intro h
    rw [← h] at hrange
    exact absurd hrange (by decide)
  have h3 : List.isPrefixOf "shares".data (c :: rest) = false := by
    rw [show "shares".data = 's' :: "hares".data from rfl]
    refine isPrefixOf_cons_ne _ _ _ _ ?_
    intro h
    rw [← h] at hrange
    exact absurd hrange (by decide)
  rw [h1, h2, h3]
  rfl

theorem shareLineChars_getLast (s : ℕ × ℕ) :
    ∀ c ∈ (shareLineChars s).getLast?, isDecDigit c = true := by
  intro c hc
  rw [shareLineChars, List.getLast?_append_of_ne_nil _ (by simp),
    show (',' :: natDecChars s.2) = [','] ++ natDecChars s.2 from rfl,
    List.getLast?_append_of_ne_nil _ (natDecChars_ne_nil s.2)] at hc
  exact natDecChars_all_digit s.2 c (List.mem_of_mem_getLast? hc)

theorem shareLineChars_trim (s : ℕ × ℕ) :
    goTrim (shareLineChars s) = shareLineChars s := by
  refine goTrim_eq_self _ ?_ ?_
  · intro c hc
    obtain ⟨c0, rest, heq, hdig⟩ := shareLineChars_head_digit s
    rw [heq] at hc
    simp only [List.head?_cons, Option.mem_def, Option.some.injEq] at hc
    subst hc
    exact isDecDigit_not_space _ hdig
  · intro c hc
    exact isDecDigit_not_space c (shareLineChars_getLast s c hc)

theorem shareLineChars_no_newline (s : ℕ × ℕ) :
    ∀ c ∈ shareLineChars s, c ≠ '\n' := by
  intro c hc
  rw [shareLineChars] at hc
  rcases List.mem_append.mp hc with h | h
  · exact isDecDigit_ne_newline c (natDecChars_all_digit s.1 c h)
  · rcases List.mem_cons.mp h with h | h
    · subst h
      decide
    · exact isDecDigit_ne_newline c (natDecChars_all_digit s.2 c h)

theorem shareLineChars_no_cr (s : ℕ × ℕ) :
    (shareLineChars s).getLast? ≠ some '\r' := by
  intro h
  have := shareLineChars_getLast s '\r' (by rw [h]; rfl)
  exact absurd this (by decide)

theorem recoverStep_shareLine (st : List (ℤ × ℤ) × List String) (s : ℕ × ℕ) :
    recoverStep st (shareLineChars s) = (st.1 ++ [((s.1 : ℤ), (s.2 : ℤ))], st.2) := by
  refine recoverStep_ok st _ _ ?_ ?_
  · rw [shareLineChars_trim]
    exact shareLineChars_skip s
  · rw [shareLineChars_trim]
    exact shareLineChars_parse s

theorem secretLineChars_skip (secret : ℕ) :
    skipLine (goTrim (secretLineChars secret)) = true := by
  have htrim : goTrim (secretLineChars secret) = secretLineChars secret := by
    refine goTrim_eq_self _ ?_ ?_
    · intro c hc
      rw [secretLineChars,
        show "secret: ".data = 's' :: "ecret: ".data from rfl] at hc
      simp only [List.cons_append, List.head?_cons, Option.mem_def,
        Option.some.injEq] at hc
      subst hc
      decide
    · intro c hc
      rw [secretLineChars,
        List.getLast?_append_of_ne_nil _ (base62Chars_ne_nil secret)] at hc
      have := base62Chars_range secret c (List.mem_of_mem_getLast? hc)
      exact goIsSpace_false_of_range c (by omega) (by omega)
  rw [htrim, skipLine, secretLineChars, isPrefixOf_self_append]
  simp

theorem headerChars_skip (k : ℕ) :
    skipLine (goTrim (headerChars k)) = true := by
  have htrim : goTrim (headerChars k) = headerChars k := by
    refine goTrim_eq_self _ ?_ ?_
    · intro c hc
      rw [headerChars,
        show "shares (need at least ".data =
          's' :: "hares (need at least ".data from rfl] at hc
      simp only [List.cons_append, List.head?_cons, Option.mem_def,
        Option.some.injEq] at hc
      subst hc
      decide
    · intro c hc
      rw [headerChars, List.append_assoc,
        List.getLast?_append_of_ne_nil _ (by simp),
        List.getLast?_append_of_ne_nil _ (by decide),
        show (" of these for recovery):".data).getLast? = some ':' from by
          decide] at hc
      have h2 : (':' : Char) = c := by simpa using hc
      rw [← h2]
      decide
  rw [htrim]
  have hp : "shares".data <+: headerChars k := by
    refine ⟨" (need at least ".data ++ (natDecChars k ++
      " of these for recovery):".data), ?_⟩
    rw [headerChars, show "shares (need at least ".data =
      "shares".data ++ " (need at least ".data from by decide]
    simp [List.append_assoc]
  have h3 := List.isPrefixOf_iff_prefix.mpr hp
  simp [skipLine, h3]

theorem secretLineChars_no_newline (secret : ℕ) :
    ∀ c ∈ secretLineChars secret, c ≠ '\n' := by
  intro c hc
  rw [secretLineChars] at hc
  rcases List.mem_append.mp hc with h | h
  · intro heq
    subst heq
    revert h
    decide
  · have := base62Chars_range secret c h
    intro heq
    subst heq
    exact absurd this (by decide)

theorem secretLineChars_no_cr (secret : ℕ) :
    (secretLineChars secret).getLast? ≠ some '\r' := by
  intro h
  rw [secretLineChars,
    List.getLast?_append_of_ne_nil _ (base62Chars_ne_nil secret)] at h
  have := base62Chars_range secret '\r' (List.mem_of_mem_getLast? h)
  exact absurd this (by decide)

theorem headerChars_no_newline (k : ℕ) :
    ∀ c ∈ headerChars k, c ≠ '\n' := by
  intro c hc
  rw [headerChars] at hc
  rcases List.mem_append.mp hc with h | h
  · rcases List.mem_append.mp h with h | h
    · intro heq
      subst heq
      revert h
      decide
    · exact isDecDigit_ne_newline c (natDecChars_all_digit k c h)
  · intro heq
    subst heq
    revert h
    decide

theorem headerChars_no_cr (k : ℕ) :
    (headerChars k).getLast? ≠ some '\r' := by
  intro h
  rw [headerChars, List.append_assoc,
    List.getLast?_append_of_ne_nil _ (by simp),
    List.getLast?_append_of_ne_nil _ (by decide),
    show (" of these for recovery):".data).getLast? = some ':' from by
      decide] at h
  exact absurd h (by decide)

/-! ## Scanner round trip for generated output -/

theorem goLines_joinLinesNL (ls : List (List Char))
    (h : ∀ l ∈ ls, (∀ c ∈ l, c ≠ '\n') ∧ l.getLast? ≠ some '\r') :
    goLines (joinLinesNL ls) = ls := by
  have hsplit : splitOnChar '\n' (joinLinesNL ls) = ls ++ [[]] := by
    induction ls with
    | nil => rfl
    | cons l t ih =>
      have hl := h l (by simp)
      have hmem : '\n' ∉ l := fun hm => hl.1 '\n' hm rfl
      rw [show joinLinesNL (l :: t) = l ++ '\n' :: joinLinesNL t from rfl,
        splitOnChar_append '\n' _ _ hmem,
        ih (fun x hx => h x (by simp [hx]))]
      rfl
  rw [goLines, hsplit]
  have hlast : (ls ++ [[]]).getLast? = some [] := List.getLast?_concat ls
  rw [hlast, if_pos rfl, List.dropLast_concat]
  have : ∀ l ∈ ls, dropCR l = l := fun l hl => dropCR_eq_self l (h l hl).2
  rw [List.map_congr_left this]
  exact List.map_id ls

end SecretCli

namespace SecretCli

/-! ## Recovery of generated output -/

theorem recoverCore_shareLines (dist : List (ℕ × ℕ)) :
    recoverCore (dist.map shareLineChars) =
      (dist.map (fun s => ((s.1 : ℤ), (s.2 : ℤ))), []) := by
  induction dist with
  | nil => rfl
  | cons s t ih =>
    rw [List.map_cons, recoverCore_cons, ih, recoverStep_shareLine]
    simp

theorem recoverCore_genLines (k : ℕ) (coeffs : List ℕ)
    (dist : List (ℕ × ℕ)) :
    recoverCore (genLines k coeffs dist) =
      (dist.map (fun s => ((s.1 : ℤ), (s.2 : ℤ))), []) := by
  rw [genLines, recoverCore_cons, recoverCore_cons,
    recoverStep_skip _ _ (secretLineChars_skip (engineSecret coeffs)),
    recoverStep_skip _ _ (headerChars_skip k), recoverCore_shareLines]
  rfl

theorem engineRecover_natPairs (dist : List (ℕ × ℕ))
    (h : ∀ s ∈ dist, s.1 < P ∧ s.2 < P) :
    engineRecover (dist.map (fun s => ((s.1 : ℤ), (s.2 : ℤ)))) =
      lagAtZero dist := by
  rw [engineRecover, List.map_map]
  congr 1
  have : ∀ s ∈ dist,
      (intoP ((s.1 : ℕ) : ℤ), intoP ((s.2 : ℕ) : ℤ)) = s := by
    intro s hs
    rw [intoP_natCast s.1 (h s hs).1, intoP_natCast s.2 (h s hs).2]
  calc dist.map ((fun s : ℤ × ℤ => (intoP s.1, intoP s.2)) ∘
        (fun s : ℕ × ℕ => ((s.1 : ℤ), (s.2 : ℤ))))
      = dist.map (fun a => a) := List.map_congr_left this
    _ = dist := List.map_id dist

/-! ## The generated pool and its size -/

theorem toInt64_lt (m : ℕ) : toInt64 m < 2 ^ 63 := by
  rw [toInt64]
  split
  · exact_mod_cast (by assumption : m < 2 ^ 63)
  · have : (0 : ℤ) < 2 ^ 63 := by positivity
    omega

theorem poolSizeZ_lower (n : ℤ) : 10000 ≤ poolSizeZ n := by
  rw [poolSizeZ]
  split
  · omega
  · omega

theorem poolSizeZ_upper (n : ℤ) : poolSizeZ n < 2 ^ 63 := by
  rw [poolSizeZ]
  have := toInt64_lt (flSquare n.toNat)
  split
  · norm_num
  · omega

theorem pow63_lt_P : 2 ^ 63 < P := by
  have h : (2 : ℕ) ^ 64 ≤ 2 ^ 127 := Nat.pow_le_pow_right (by omega) (by omega)
  have h2 : (2 : ℕ) ^ 63 < 2 ^ 64 := Nat.pow_lt_pow_right (by omega) (by omega)
  simp only [P]
  omega

theorem mem_engineShares (t : ℕ) (coeffs : List ℕ) (s : ℕ × ℕ)
    (h : s ∈ engineShares t coeffs) :
    1 ≤ s.1 ∧ s.1 ≤ t ∧ s.2 = evalPoly coeffs s.1 := by
  rw [engineShares, List.mem_map] at h
  obtain ⟨i, hi, rfl⟩ := h
  rw [List.mem_range] at hi
  exact ⟨by omega, by omega, rfl⟩

theorem engineShares_map_fst (t : ℕ) (coeffs : List ℕ) :
    (engineShares t coeffs).map Prod.fst = (List.range t).map (· + 1) := by
  rw [engineShares, List.map_map]
  rfl

theorem engineShares_fst_nodup (t : ℕ) (coeffs : List ℕ) :
    ((engineShares t coeffs).map Prod.fst).Nodup := by
  rw [engineShares_map_fst]
  exact (List.nodup_range t).map (fun a b => by omega)

theorem engineShares_length (t : ℕ) (coeffs : List ℕ) :
    (engineShares t coeffs).length = t := by
  rw [engineShares, List.length_map, List.length_range]

/-! ## The success form of `cmdGenerate` -/

theorem cmdGenerate_eq_ok (n k : ℤ) (coeffs : List ℕ)
    (shuffled : List (ℕ × ℕ)) (hk : 1 ≤ k) (hkn : k ≤ n)
    (hpool : ¬ poolSizeZ n < n) :
    cmdGenerate n k coeffs shuffled = .ok (String.mk
      (joinLinesNL (genLines k.toNat coeffs (shuffled.take n.toNat)))) := by
  rw [cmdGenerate, if_neg (by omega), if_neg (by omega)]
  simp only [if_neg hpool]

theorem cmdGenerate_ok_inv (n k : ℤ) (coeffs : List ℕ)
    (shuffled : List (ℕ × ℕ)) (out : String)
    (hout : cmdGenerate n k coeffs shuffled = .ok out) :
    k ≤ n ∧ 1 ≤ k ∧ 1 ≤ n ∧ ¬ poolSizeZ n < n ∧
      out = String.mk
        (joinLinesNL (genLines k.toNat coeffs (shuffled.take n.toNat))) := by
  rw [cmdGenerate] at hout
  by_cases h1 : k > n
  · rw [if_pos h1] at hout
    exact absurd hout (by simp)
  · rw [if_neg h1] at hout
    by_cases h2 : n < 1 ∨ k < 1
    · rw [if_pos h2] at hout
      exact absurd hout (by simp)
    · rw [if_neg h2] at hout
      by_cases h3 : poolSizeZ n < n
      · rw [if_pos h3] at hout
        exact absurd hout (by simp)
      · rw [if_neg h3] at hout
        refine ⟨by omega, by omega, by omega, h3, ?_⟩
        exact (GenResult.ok.injEq _ _ ▸ hout).symm

end SecretCli

namespace SecretCli

/-- C1.  Round trip / decoration tolerance: for a valid generation
(`1 ≤ k ≤ n`, polynomial of `k` coefficients, `rand.Shuffle` modelled as
an arbitrary permutation of the engine pool) that returns output `out`,
feeding the entire text `out` (secret line, header line and the `n`
share lines) unmodified into `cmdRecover` recovers exactly the original
secret's base-62 text followed by a newline with no diagnostic output,
and feeding only the share lines yields the same result. -/
theorem generate_recover_round_trip (n k : ℤ) (coeffs : List ℕ)
    (shuffled : List (ℕ × ℕ)) (out : String)
    (hk : 1 ≤ k) (hkn : k ≤ n)
    (hlen : coeffs.length = k.toNat)
    (hperm : shuffled.Perm (engineShares (poolSizeZ n).toNat coeffs))
    (hout : cmdGenerate n k coeffs shuffled = .ok out) :
    cmdRecover out = .ok ⟨"", base62 (engineSecret coeffs) ++ "\n"⟩ ∧
    cmdRecover (String.mk (joinLinesNL
        ((shuffled.take n.toNat).map shareLineChars))) =
      .ok ⟨"", base62 (engineSecret coeffs) ++ "\n"⟩ := by
  obtain ⟨h1, h2, h3, hpool, hout_eq⟩ :=
    cmdGenerate_ok_inv n k coeffs shuffled out hout
  have hsub : ∀ s ∈ shuffled.take n.toNat,
      s ∈ engineShares (poolSizeZ n).toNat coeffs := fun s hs =>
    hperm.mem_iff.mp (List.take_subset _ _ hs)
  have hbound : ∀ s ∈ shuffled.take n.toNat, s.1 < P ∧ s.2 < P := by
    intro s hs
    obtain ⟨hx1, hx2, hy⟩ := mem_engineShares _ _ s (hsub s hs)
    have hup := poolSizeZ_upper n
    have hlo := poolSizeZ_lower n
    have h63 := pow63_lt_P
    constructor
    · omega
    · rw [hy]
      exact evalPoly_lt _ _
  have hnodup : ((shuffled.take n.toNat).map Prod.fst).Nodup := by
    have hperm2 := hperm.map Prod.fst
    have hnd : (shuffled.map Prod.fst).Nodup :=
      hperm2.nodup_iff.mpr (engineShares_fst_nodup _ _)
    rw [List.map_take]
    exact hnd.sublist (List.take_sublist _ _)
  have hy : ∀ s ∈ shuffled.take n.toNat, s.2 = evalPoly coeffs s.1 :=
    fun s hs => (mem_engineShares _ _ s (hsub s hs)).2.2
  have hlendist : (shuffled.take n.toNat).length = n.toNat := by
    rw [List.length_take, hperm.length_eq, engineShares_length]
    omega
  have hklen : coeffs.length ≤ (shuffled.take n.toNat).length := by
    rw [hlen, hlendist]
    omega
  have hrec := lagAtZero_eq_evalPoly_zero coeffs (shuffled.take n.toNat)
    hnodup (fun q hq => (hbound q hq).1) hy hklen
  have hlines2 : goLines (joinLinesNL
      ((shuffled.take n.toNat).map shareLineChars)) =
      (shuffled.take n.toNat).map shareLineChars := by
    refine goLines_joinLinesNL _ ?_
    intro l hl
    rw [List.mem_map] at hl
    obtain ⟨s, _, rfl⟩ := hl
    exact ⟨shareLineChars_no_newline s, shareLineChars_no_cr s⟩
  have hrec2 : cmdRecover (String.mk (joinLinesNL
      ((shuffled.take n.toNat).map shareLineChars))) =
      .ok ⟨"", base62 (engineSecret coeffs) ++ "\n"⟩ := by
    rw [cmdRecover,
      show (String.mk (joinLinesNL
        ((shuffled.take n.toNat).map shareLineChars))).data =
        joinLinesNL ((shuffled.take n.toNat).map shareLineChars) from rfl,
      hlines2]
    simp only [cmdRecoverLines, recoverCore_shareLines]
    rw [engineRecover_natPairs _ hbound, hrec]
    rfl
  have hlines1 : goLines (joinLinesNL
      (genLines k.toNat coeffs (shuffled.take n.toNat))) =
      genLines k.toNat coeffs (shuffled.take n.toNat) := by
    refine goLines_joinLinesNL _ ?_
    intro l hl
    rw [genLines] at hl
    rcases List.mem_cons.mp hl with rfl | hl
    · exact ⟨secretLineChars_no_newline _, secretLineChars_no_cr _⟩
    · rcases List.mem_cons.mp hl with rfl | hl
      · exact ⟨headerChars_no_newline _, headerChars_no_cr _⟩
      · rw [List.mem_map] at hl
        obtain ⟨s, _, rfl⟩ := hl
        exact ⟨shareLineChars_no_newline s, shareLineChars_no_cr s⟩
  have hrec1 : cmdRecover out =
      .ok ⟨"", base62 (engineSecret coeffs) ++ "\n"⟩ := by
    rw [hout_eq, cmdRecover,
      show (String.mk (joinLinesNL
        (genLines k.toNat coeffs (shuffled.take n.toNat)))).data =
        joinLinesNL (genLines k.toNat coeffs (shuffled.take n.toNat))
        from rfl,
      hlines1]
    simp only [cmdRecoverLines, recoverCore_genLines]
    rw [engineRecover_natPairs _ hbound, hrec]
    rfl
  exact ⟨hrec1, hrec2⟩

/-- Witness for C1 at the concrete instance `n = k = 1`, the zero
polynomial, and the identity shuffle. -/
theorem generate_recover_round_trip_witness :
    cmdRecover (String.mk (joinLinesNL (genLines (1 : ℤ).toNat [0]
        (((engineShares (poolSizeZ 1).toNat [0])).take (1 : ℤ).toNat)))) =
      .ok ⟨"", base62 (engineSecret [0]) ++ "\n"⟩ ∧
    cmdRecover (String.mk (joinLinesNL
        (((engineShares (poolSizeZ 1).toNat [0]).take
          (1 : ℤ).toNat).map shareLineChars))) =
      .ok ⟨"", base62 (engineSecret [0]) ++ "\n"⟩ :=
  generate_recover_round_trip 1 1 [0]
    (engineShares (poolSizeZ 1).toNat [0])
    (String.mk (joinLinesNL (genLines (1 : ℤ).toNat [0]
      ((engineShares (poolSizeZ 1).toNat [0]).take (1 : ℤ).toNat))))
    (by norm_num) (by norm_num) (by decide) (List.Perm.refl _)
    (cmdGenerate_eq_ok 1 1 [0] _ (by norm_num) (by norm_num) (by decide))

end SecretCli

namespace SecretCli

/-- C2.  Generation validation raises-iff: `cmdGenerate n k` returns an
error exactly when `k > n` or `n < 1` or `k < 1`; a `k > n` failure
carries the insufficient-shares message and a non-positive parameter
(with `k ≤ n`) carries the positivity message; in particular
`generate(5, 10)`, `generate(0, 0)` and `generate(-1, -10)` all fail
with the respective messages. -/
theorem cmdGenerate_validation :
    (∀ (n k : ℤ) (coeffs : List ℕ) (shuffled : List (ℕ × ℕ)),
      ((∃ msg, cmdGenerate n k coeffs shuffled = .err msg) ↔
        (k > n ∨ n < 1 ∨ k < 1)) ∧
      (k > n → cmdGenerate n k coeffs shuffled =
        .err "There will not be enough shares to recover the secret.") ∧
      (k ≤ n → (n < 1 ∨ k < 1) → cmdGenerate n k coeffs shuffled =
        .err "Number of shares must be larger than 1.")) ∧
    (∀ coeffs shuffled, cmdGenerate 5 10 coeffs shuffled =
      .err "There will not be enough shares to recover the secret.") ∧
    (∀ coeffs shuffled, cmdGenerate 0 0 coeffs shuffled =
      .err "Number of shares must be larger than 1.") ∧
    (∀ coeffs shuffled, cmdGenerate (-1) (-10) coeffs shuffled =
      .err "Number of shares must be larger than 1.") := by
  have main : ∀ (n k : ℤ) (coeffs : List ℕ) (shuffled : List (ℕ × ℕ)),
      ((∃ msg, cmdGenerate n k coeffs shuffled = .err msg) ↔
        (k > n ∨ n < 1 ∨ k < 1)) ∧
      (k > n → cmdGenerate n k coeffs shuffled =
        .err "There will not be enough shares to recover the secret.") ∧
      (k ≤ n → (n < 1 ∨ k < 1) → cmdGenerate n k coeffs shuffled =
        .err "Number of shares must be larger than 1.") := by
    intro n k coeffs shuffled
    rw [cmdGenerate]
    by_cases h1 : k > n
    · rw [if_pos h1]
      exact ⟨⟨fun _ => Or.inl h1, fun _ => ⟨_, rfl⟩⟩, fun _ => rfl,
        fun hkn _ => absurd h1 (not_lt.mpr hkn)⟩
    · rw [if_neg h1]
      by_cases h2 : n < 1 ∨ k < 1
      · rw [if_pos h2]
        exact ⟨⟨fun _ => Or.inr h2, fun _ => ⟨_, rfl⟩⟩,
          fun hk1 => absurd hk1 h1, fun _ _ => rfl⟩
      · rw [if_neg h2]
        refine ⟨⟨fun ⟨msg, hmsg⟩ => ?_, fun hcond => ?_⟩,
          fun hk1 => absurd hk1 h1, fun _ hcond => absurd hcond h2⟩
        · by_cases h3 : poolSizeZ n < n
          · rw [if_pos h3] at hmsg
            exact absurd hmsg (by simp)
          · rw [if_neg h3] at hmsg
            exact absurd hmsg (by simp)
        · exact absurd hcond (by tauto)
  refine ⟨main, fun c s => ?_, fun c s => ?_, fun c s => ?_⟩
  · exact (main 5 10 c s).2.1 (by norm_num)
  · exact (main 0 0 c s).2.2 (by norm_num) (by norm_num)
  · exact (main (-1) (-10) c s).2.2 (by norm_num) (by norm_num)

/-- Witness for C2 at `generate(5, 10)`. -/
theorem cmdGenerate_validation_witness :
    ((10 : ℤ) > 5 ∨ (5 : ℤ) < 1 ∨ (10 : ℤ) < 1) ∧
      cmdGenerate 5 10 [] [] =
        .err "There will not be enough shares to recover the secret." :=
  ⟨by norm_num, (cmdGenerate_validation.1 5 10 [] []).2.1 (by norm_num)⟩

/-- Exactness of binary64 rounding below `2^53`. -/
theorem rnd53_eq_self (m : ℕ) (h : m ≤ 2 ^ 53) : rnd53 m = m := by
  by_cases h2 : m < 2 ^ 53
  · rw [rnd53, if_pos h2]
  · have he : m = 2 ^ 53 := by omega
    subst he
    decide

theorem poolSizeZ_exact (n : ℤ) (hn : 1 ≤ n) (hsq : n * n ≤ 2 ^ 53) :
    poolSizeZ n = max (n * n) 10000 := by
  have ha : (n.toNat : ℤ) = n := by omega
  have hasq : n.toNat * n.toNat ≤ 2 ^ 53 := by
    have : ((n.toNat * n.toNat : ℕ) : ℤ) = n * n := by
      push_cast
      rw [ha]
    omega
  have ha53 : n.toNat ≤ 2 ^ 53 := by
    have hle : n.toNat ≤ n.toNat * n.toNat :=
      Nat.le_mul_of_pos_left n.toNat (by omega)
    omega
  have hfl : flSquare n.toNat = n.toNat * n.toNat := by
    rw [flSquare, rnd53_eq_self n.toNat ha53, rnd53_eq_self _ hasq]
  have hlt63 : n.toNat * n.toNat < 2 ^ 63 := by
    have : (2 : ℕ) ^ 53 < 2 ^ 63 := Nat.pow_lt_pow_right (by omega) (by omega)
    omega
  rw [poolSizeZ, hfl, toInt64, if_pos hlt63]
  have hcast : ((n.toNat * n.toNat : ℕ) : ℤ) = n * n := by
    push_cast
    rw [ha]
  rw [hcast]
  by_cases hc : (n * n : ℤ) < 10000
  · rw [if_pos hc, max_eq_right (by omega)]
  · rw [if_neg hc, max_eq_left (by omega)]

/-- C4 (amended).  Pool size formula: for every valid `n` whose exact
square does not exceed `2^53` (so that the float64 computation
`int64(math.Pow(float64(n), 2))` is exact), the generator requests
exactly `max(n², 10000)` shares from the engine. -/
theorem poolSize_formula (n : ℤ) (hn : 1 ≤ n) (hsq : n * n ≤ 2 ^ 53) :
    poolSizeZ n = max (n * n) 10000 :=
  poolSizeZ_exact n hn hsq

/-- Witness for C4 at `n = 3`. -/
theorem poolSize_formula_witness :
    ((1 : ℤ) ≤ 3 ∧ (3 : ℤ) * 3 ≤ 2 ^ 53) ∧
      poolSizeZ 3 = max ((3 : ℤ) * 3) 10000 :=
  ⟨by norm_num, poolSize_formula 3 (by norm_num) (by norm_num)⟩

/-- C4 counterexample: at `n = 94906267` (whose square `9007199515875289`
is odd and exceeds `2^53`, hence not a binary64 value), the pool the
generator requests is `9007199515875288 = n² - 1`, not `max(n², 10000)`. -/
theorem poolSize_formula_counterexample :
    poolSizeZ 94906267 = 9007199515875288 ∧
      poolSizeZ 94906267 ≠ max ((94906267 : ℤ) * 94906267) 10000 := by
  constructor
  · decide
  · decide

/-- C5.  Parser skip rule: a line whose trimmed form is empty or starts
with `"secret: "` or `"shares"` is skipped silently — it contributes no
record, no diagnostic, and does not change the result of the whole
invocation — and every other line either parses into a share record or
appends exactly one diagnostic. -/
theorem parser_skip_rule :
    (∀ (pre post : List (List Char)) (l : List Char),
      skipLine (goTrim l) = true →
        cmdRecoverLines (pre ++ l :: post) = cmdRecoverLines (pre ++ post) ∧
        recoverCore (pre ++ l :: post) = recoverCore (pre ++ post)) ∧
    (∀ (st : List (ℤ × ℤ) × List String) (l : List Char),
      skipLine (goTrim l) = false →
        (∃ s, parseShare (goTrim l) = .ok s ∧
          recoverStep st l = (st.1 ++ [s], st.2)) ∨
        (∃ e, parseShare (goTrim l) = .error e ∧
          recoverStep st l = (st.1, st.2 ++ [mkDiag (goTrim l) e]))) := by
  constructor
  · intro pre post l h
    have hcore : recoverCore (pre ++ l :: post) = recoverCore (pre ++ post) := by
      rw [recoverCore_append pre (l :: post), recoverCore_append pre post,
        recoverCore_cons, recoverStep_skip _ _ h]
      simp
    refine ⟨?_, hcore⟩
    simp only [cmdRecoverLines, hcore]
  · intro st l h
    rcases hp : parseShare (goTrim l) with e | s
    · exact Or.inr ⟨e, rfl, recoverStep_err st l e h hp⟩
    · exact Or.inl ⟨s, rfl, recoverStep_ok st l s h hp⟩

/-- Witness for C5: the decoration line `"secret: x"` is skipped in a
one-line input, and the garbage line `"foo"` hits the diagnostic arm. -/
theorem parser_skip_rule_witness :
    (skipLine (goTrim "secret: x".data) = true ∧
      cmdRecoverLines ([] ++ "secret: x".data :: []) =
        cmdRecoverLines ([] ++ []) ∧
      recoverCore ([] ++ "secret: x".data :: []) =
        recoverCore ([] ++ [])) ∧
    (skipLine (goTrim "foo".data) = false ∧
      ((∃ s, parseShare (goTrim "foo".data) = .ok s ∧
        recoverStep ([], []) "foo".data = (([] : List (ℤ × ℤ)) ++ [s], [])) ∨
      (∃ e, parseShare (goTrim "foo".data) = .error e ∧
        recoverStep ([], []) "foo".data =
          ([], ([] : List String) ++ [mkDiag (goTrim "foo".data) e])))) :=
  ⟨⟨by decide, (parser_skip_rule.1 [] [] _ (by decide)).1,
    (parser_skip_rule.1 [] [] _ (by decide)).2⟩,
   ⟨by decide, parser_skip_rule.2 ([], []) "foo".data (by decide)⟩⟩

/-- C6.  Fail-soft parsing: a malformed line among otherwise processed
lines adds exactly one diagnostic of the form
`reading share "<line>": <reason>` at its position, leaves the collected
records unchanged, does not change the recovered output, and the
invocation still returns without error. -/
theorem fail_soft_parsing (pre post : List (List Char)) (l : List Char)
    (e : String) (hskip : skipLine (goTrim l) = false)
    (herr : parseShare (goTrim l) = .error e) :
    recoverCore (pre ++ l :: post) =
      ((recoverCore (pre ++ post)).1,
        (recoverCore pre).2 ++ [mkDiag (goTrim l) e] ++
          (recoverCore post).2) ∧
    cmdRecoverLines (pre ++ l :: post) =
      .ok ⟨String.join ((recoverCore pre).2 ++ [mkDiag (goTrim l) e] ++
          (recoverCore post).2),
        base62 (engineRecover ((recoverCore (pre ++ post)).1)) ++ "\n"⟩ ∧
    cmdRecoverLines (pre ++ post) =
      .ok ⟨String.join ((recoverCore pre).2 ++ (recoverCore post).2),
        base62 (engineRecover ((recoverCore (pre ++ post)).1)) ++ "\n"⟩ := by
  have hcore : recoverCore (pre ++ l :: post) =
      ((recoverCore (pre ++ post)).1,
        (recoverCore pre).2 ++ [mkDiag (goTrim l) e] ++
          (recoverCore post).2) := by
    rw [recoverCore_append pre (l :: post), recoverCore_cons,
      recoverStep_err ([], []) l e hskip herr,
      recoverCore_append pre post]
    simp
  refine ⟨hcore, ?_, ?_⟩
  · simp only [cmdRecoverLines, hcore]
  · simp only [cmdRecoverLines, recoverCore_append pre post]

/-- Witness for C6: the line `"foo"` among two valid share lines. -/
theorem fail_soft_parsing_witness :
    skipLine (goTrim "foo".data) = false ∧
    parseShare (goTrim "foo".data) = .error "expected two parts" ∧
    recoverCore (["1,2".data] ++ "foo".data :: ["3,4".data]) =
      ((recoverCore (["1,2".data] ++ ["3,4".data])).1,
        (recoverCore ["1,2".data]).2 ++
          [mkDiag (goTrim "foo".data) "expected two parts"] ++
          (recoverCore ["3,4".data]).2) :=
  ⟨by decide, by decide,
    (fail_soft_parsing ["1,2".data] ["3,4".data] "foo".data
      "expected two parts" (by decide) (by decide)).1⟩

end SecretCli

namespace SecretCli

set_option maxRecDepth 20000 in
/-- C7.  Concrete recovery scenario from the repository's tests: the
three share lines recover to the secret text `7uPIBqGKMPpProBYFFR3S`
with no diagnostic output. -/
theorem recover_concrete_scenario :
    cmdRecover ("1,19943338053965968504353533017903769217\n" ++
      "2,161872477868088873785792630750634181303\n" ++
      "5,160274174127002500413544256698187925606") =
      .ok ⟨"", "7uPIBqGKMPpProBYFFR3S\n"⟩ := by decide

/-- C8 counterexample: on an empty input stream zero records are parsed,
yet the invocation emits the line `"0"` (the engine's empty recovery
rendered in base 62), not nothing. -/
theorem empty_recovery_not_silent :
    cmdRecover "" = .ok ⟨"", "0\n"⟩ ∧ ("0\n" : String) ≠ "" := by decide

/-- C8 (amended).  If zero share records were parsed from the input
(every line was decoration or malformed, or the stream was empty), the
recovery invocation emits exactly the base-62 rendering of the engine's
empty recovery — the single line `"0"` — rather than nothing. -/
theorem empty_records_output (lines : List (List Char))
    (h : (recoverCore lines).1 = []) :
    cmdRecoverLines lines =
      .ok ⟨String.join (recoverCore lines).2, "0\n"⟩ := by
  have hdef : cmdRecoverLines lines =
      .ok ⟨String.join (recoverCore lines).2,
        base62 (engineRecover (recoverCore lines).1) ++ "\n"⟩ := rfl
  rw [hdef, h]
  rfl

/-- Witness for C8 on the single garbage line `"foo"`. -/
theorem empty_records_output_witness :
    (recoverCore ["foo".data]).1 = [] ∧
      cmdRecoverLines ["foo".data] =
        .ok ⟨String.join (recoverCore ["foo".data]).2, "0\n"⟩ :=
  ⟨by decide, empty_records_output ["foo".data] (by decide)⟩

/-- C9 counterexample: the CLI declares no `mode` flag at all — its only
string-valued flag is the `secrets` path — so no "mode string" exists
to be unrecognized. -/
theorem mode_string_counterexample :
    ("mode" ∉ cliFlags.map Prod.fst) ∧
      (∀ p ∈ cliFlags, p.2 = "string" → p.1 = "secrets") := by decide

/-- C9 (amended).  Mode selection: the CLI selects between exactly two
modes, generate (the default, `-recover=false`) and recover
(`-recover=true`), via the boolean `recover` flag; every flag value
selects one of the two modes, so no unrecognized-mode error path
exists. -/
theorem mode_selection_boolean :
    (∀ b, mainMode b = Mode.generate ∨ mainMode b = Mode.recover) ∧
    mainMode false = Mode.generate ∧ mainMode true = Mode.recover ∧
    ("recover", "bool") ∈ cliFlags := by decide

/-- C10.  The shadowing bug in `main`'s recover arm: with a `-secrets`
file argument that opens successfully (handle 3), the
`fh, err := os.Open(*secrets)` short declaration creates new variables
scoped to the switch case, so the outer `fh` stays nil and that nil
stream — not the opened file — is what reaches `cmdRecover`; the
deferred close does apply to the opened handle. -/
theorem recover_stream_shadowing_bug :
    recoverPassedFh "shares.txt" 3 = FhVal.nil ∧
    FhVal.nil ≠ FhVal.file 3 ∧
    recoverPassedFh "-" 3 = FhVal.stdin ∧
    recoverClosedHandles "shares.txt" 3 = [3] := by decide

end SecretCli

namespace SecretCli

/-- C3 (amended).  For every valid `(n, k)` with `1 ≤ k ≤ n` whose exact
square does not exceed `2^53` (so the float64 pool computation is
exact), a generation call outputs exactly one secret line, one header
line containing `k` and `n` share lines; the distributed shares are `n`
distinct elements of the engine-produced pool, and their indices lie in
`[1, max(n², 10000)]` with no duplicates. -/
theorem generate_share_lines (n k : ℤ) (coeffs : List ℕ)
    (shuffled : List (ℕ × ℕ))
    (hk : 1 ≤ k) (hkn : k ≤ n) (hsq : n * n ≤ 2 ^ 53)
    (hperm : shuffled.Perm (engineShares (poolSizeZ n).toNat coeffs)) :
    poolSizeZ n = max (n * n) 10000 ∧
    cmdGenerate n k coeffs shuffled = .ok (String.mk (joinLinesNL
      (secretLineChars (engineSecret coeffs) :: headerChars k.toNat ::
        (shuffled.take n.toNat).map shareLineChars))) ∧
    (shuffled.take n.toNat).length = n.toNat ∧
    ((shuffled.take n.toNat).map Prod.fst).Nodup ∧
    (∀ s ∈ shuffled.take n.toNat,
      s ∈ engineShares (poolSizeZ n).toNat coeffs ∧
      1 ≤ s.1 ∧ (s.1 : ℤ) ≤ max (n * n) 10000) := by
  have hn1 : (1 : ℤ) ≤ n := le_trans hk hkn
  have hpoolmax := poolSizeZ_exact n hn1 hsq
  have hnn : n ≤ n * n := le_mul_of_one_le_left (by omega) hn1
  have hpool : ¬ poolSizeZ n < n := by
    rw [hpoolmax]
    have := le_max_left (n * n) (10000 : ℤ)
    omega
  have hok := cmdGenerate_eq_ok n k coeffs shuffled hk hkn hpool
  have hsub : ∀ s ∈ shuffled.take n.toNat,
      s ∈ engineShares (poolSizeZ n).toNat coeffs := fun s hs =>
    hperm.mem_iff.mp (List.take_subset _ _ hs)
  refine ⟨hpoolmax, hok, ?_, ?_, ?_⟩
  · rw [List.length_take, hperm.length_eq, engineShares_length]
    omega
  · have hperm2 := hperm.map Prod.fst
    have hnd : (shuffled.map Prod.fst).Nodup :=
      hperm2.nodup_iff.mpr (engineShares_fst_nodup _ _)
    rw [List.map_take]
    exact hnd.sublist (List.take_sublist _ _)
  · intro s hs
    obtain ⟨hx1, hx2, _⟩ := mem_engineShares _ _ s (hsub s hs)
    refine ⟨hsub s hs, hx1, ?_⟩
    rw [← hpoolmax]
    have hlo := poolSizeZ_lower n
    omega

/-- Witness for C3 at `n = k = 1`, the zero polynomial and the identity
shuffle. -/
theorem generate_share_lines_witness :
    ((1 : ℤ) ≤ 1 ∧ (1 : ℤ) * 1 ≤ 2 ^ 53) ∧
    (poolSizeZ 1 = max ((1 : ℤ) * 1) 10000 ∧
      cmdGenerate 1 1 [0] (engineShares (poolSizeZ 1).toNat [0]) =
        .ok (String.mk (joinLinesNL
          (secretLineChars (engineSecret [0]) :: headerChars (1 : ℤ).toNat ::
            ((engineShares (poolSizeZ 1).toNat [0]).take
              (1 : ℤ).toNat).map shareLineChars))) ∧
      ((engineShares (poolSizeZ 1).toNat [0]).take (1 : ℤ).toNat).length =
        (1 : ℤ).toNat ∧
      (((engineShares (poolSizeZ 1).toNat [0]).take
        (1 : ℤ).toNat).map Prod.fst).Nodup ∧
      (∀ s ∈ (engineShares (poolSizeZ 1).toNat [0]).take (1 : ℤ).toNat,
        s ∈ engineShares (poolSizeZ 1).toNat [0] ∧
        1 ≤ s.1 ∧ (s.1 : ℤ) ≤ max ((1 : ℤ) * 1) 10000)) :=
  ⟨⟨by norm_num, by norm_num⟩,
    generate_share_lines 1 1 [0] (engineShares (poolSizeZ 1).toNat [0])
      (by norm_num) (by norm_num) (by norm_num) (List.Perm.refl _)⟩

theorem head?_take (l : List (ℕ × ℕ)) (j : ℕ) (h : j ≠ 0) :
    (l.take j).head? = l.head? := by
  cases l with
  | nil => simp
  | cons a t =>
    cases j with
    | zero => exact absurd rfl h
    | succ j => simp [List.take]

theorem engineShares_getLast (m : ℕ) (c : List ℕ) (h : 0 < m) :
    (engineShares m c).getLast? = some (m, evalPoly c m) := by
  have hne : m ≠ 0 := by omega
  obtain ⟨m', rfl⟩ := Nat.exists_eq_succ_of_ne_zero hne
  rw [engineShares, List.range_succ, List.map_append]
  exact List.getLast?_concat _

/-- C3 counterexample: at `n = 268435459` and `k = 1`, the float64 pool
computation rounds `n² = 72057595648540681` up to `72057595648540688`,
generation succeeds on the reversed pool (a legitimate shuffle), and the
first distributed share carries index `72057595648540688`, outside the
claimed range `[1, max(n², 10000)]`. -/
theorem generate_share_lines_counterexample :
    ((engineShares (poolSizeZ 268435459).toNat [0]).reverse).Perm
      (engineShares (poolSizeZ 268435459).toNat [0]) ∧
    (∃ out, cmdGenerate 268435459 1 [0]
      ((engineShares (poolSizeZ 268435459).toNat [0]).reverse) =
        .ok out) ∧
    ((((engineShares (poolSizeZ 268435459).toNat [0]).reverse).take
        (268435459 : ℤ).toNat).map Prod.fst).head? =
      some ((poolSizeZ 268435459).toNat) ∧
    ¬ (((poolSizeZ 268435459).toNat : ℤ) ≤
        max ((268435459 : ℤ) * 268435459) 10000) := by
  have hm : 0 < (poolSizeZ 268435459).toNat := by
    have := poolSizeZ_lower 268435459
    omega
  have hpool : ¬ poolSizeZ 268435459 < 268435459 := by decide
  refine ⟨List.reverse_perm _, ⟨_, cmdGenerate_eq_ok 268435459 1 [0] _
    (by norm_num) (by norm_num) hpool⟩, ?_, ?_⟩
  · rw [List.head?_map,
      head?_take _ _ (by decide),
      List.head?_reverse,
      engineShares_getLast _ _ hm]
    rfl
  · decide

end SecretCli
